import Mathlib

/-!
Verification development for the script-workspace tooling core.

The source is TypeScript running on Node.  JavaScript strings are modelled as
`List Char` (one element per UTF-16 code unit; all inputs of interest are
ASCII, where code units and characters coincide).  Node's `path` module is
modelled in its POSIX flavour (`path.sep = '/'`), following the documented
algorithms of `path.normalize`, `path.resolve` and `path.isAbsolute`.
The filesystem is abstract: `fs.existsSync` becomes a Boolean-valued
parameter, and the directory tree walked by the scanner becomes an explicit
tree value.
-/

/-- Shorthand turning a Lean string literal into the `List Char` that models
the corresponding JavaScript string. -/
def js (s : String) : List Char := s.data

/-- Model of JavaScript `s.startsWith(r)`: `r` is a leading segment of `s`. -/
def startsWithL : List Char → List Char → Bool
  | _, [] => true
  | [], _ :: _ => false
  | c :: s, d :: r => c == d && startsWithL s r

/-- Model of the JavaScript character test `s[i] === c`: indexing past the
end yields `undefined`, which is unequal to every character. -/
def charAtIs (s : List Char) (i : Nat) (c : Char) : Bool :=
  match s.drop i with
  | [] => false
  | d :: _ => d == c

/-- Model of POSIX `path.isAbsolute`: the path starts with `'/'`. -/
def isAbsolutePath (p : List Char) : Bool :=
  match p with
  | [] => false
  | c :: _ => c == '/'

/-- Splitting a character list at a separator character, mirroring
JavaScript `String.prototype.split` with a one-character separator. -/
def splitOnChar (c : Char) : List Char → List (List Char)
  | [] => [[]]
  | d :: rest =>
    let r := splitOnChar c rest
    if d == c then [] :: r
    else
      match r with
      | [] => [[d]]
      | h :: t => (d :: h) :: t

/-- One step of Node's `normalizeString`: fold a path segment into the list
of resolved segments.  `""` and `"."` are dropped; `".."` pops the last
segment when possible, is kept for relative paths that climb above their
start, and is discarded at the root of an absolute path. -/
def normStep (allowAboveRoot : Bool) (res : List (List Char)) (seg : List Char) :
    List (List Char) :=
  if seg = [] ∨ seg = ['.'] then res
  else if seg = ['.', '.'] then
    if res ≠ [] ∧ res.getLast? ≠ some ['.', '.'] then res.dropLast
    else if allowAboveRoot then res ++ [seg]
    else res
  else res ++ [seg]

/-- Model of POSIX `path.normalize`. -/
def pathNormalize (p : List Char) : List Char :=
  if p = [] then ['.']
  else
    let isAbs := isAbsolutePath p
    let trailing : Bool := p.getLast? == some '/'
    let segs := (splitOnChar '/' p).foldl (normStep !isAbs) []
    let body := List.intercalate ['/'] segs
    if body = [] then
      if isAbs then ['/'] else if trailing then ['.', '/'] else ['.']
    else
      let body2 := if trailing then body ++ ['/'] else body
      if isAbs then '/' :: body2 else body2

/-- The right-to-left accumulation loop of POSIX `path.resolve`: arguments
are consumed from the last to the first until one is absolute, falling back
to the working directory `cwd`. -/
def resolveLoop (cwd : List Char) : List (List Char) → List Char → List Char × Bool
  | [], acc => (cwd ++ '/' :: acc, isAbsolutePath cwd)
  | p :: rest, acc =>
    if p = [] then resolveLoop cwd rest acc
    else if isAbsolutePath p then (p ++ '/' :: acc, true)
    else resolveLoop cwd rest (p ++ '/' :: acc)

/-- Model of POSIX `path.resolve(...args)` relative to working directory
`cwd` (modelling `process.cwd()`). -/
def pathResolve (cwd : List Char) (args : List (List Char)) : List Char :=
  let ja := resolveLoop cwd args.reverse []
  let segs := (splitOnChar '/' ja.1).foldl (normStep !ja.2) []
  let body := List.intercalate ['/'] segs
  if ja.2 then '/' :: body
  else if body = [] then ['.'] else body

/-- The per-root confinement test inside `isPathInScriptRoots`
(src/unnamed/part_001 lines 17-21): the normalized path starts with the
normalized root and the remainder is empty or begins at a separator. -/
def confineCheck (normalizedPath normalizedRoot : List Char) : Bool :=
  startsWithL normalizedPath normalizedRoot &&
    (normalizedPath.length == normalizedRoot.length ||
      charAtIs normalizedPath normalizedRoot.length '/')

/-- Embedding of `isPathInScriptRoots` (src/unnamed/part_001 lines 13-23). -/
def isPathInScriptRoots (absolutePath : List Char) (roots : List (List Char)) : Bool :=
  let normalizedPath := pathNormalize absolutePath
  roots.any fun root => confineCheck normalizedPath (pathNormalize root)

/-- Output of path resolution (`{absolutePath, root}` in the source). -/
structure ResolvedPath where
  absolutePath : List Char
  root : List Char
deriving DecidableEq, Repr

/-- The `for (const root of roots)` loop of `resolveScriptPath`
(src/unnamed/part_001 lines 47-52): resolve the relative candidate against
each root in order, accepting the first result that is confined to the root
set and exists.  `fExists` models `fs.existsSync`. -/
def tryRootsLoop (cwd : List Char) (fExists : List Char → Bool) (filePath : List Char)
    (allRoots : List (List Char)) : List (List Char) → Option ResolvedPath
  | [] => none
  | root :: rest =>
    let absolutePath := pathResolve cwd [root, filePath]
    if isPathInScriptRoots absolutePath allRoots && fExists absolutePath then
      some ⟨absolutePath, root⟩
    else tryRootsLoop cwd fExists filePath allRoots rest

/-- Embedding of `resolveScriptPath` (src/unnamed/part_001 lines 29-55).
`fExists` models `fs.existsSync`; `cwd` models `process.cwd()`. -/
def resolveScriptPath (cwd : List Char) (fExists : List Char → Bool)
    (filePath : List Char) (roots : List (List Char)) : Option ResolvedPath :=
  if isAbsolutePath filePath then
    if isPathInScriptRoots filePath roots && fExists filePath then
      match roots.find? (fun r => startsWithL (pathNormalize filePath) (pathNormalize r)) with
      | some root => some ⟨filePath, root⟩
      | none => none
    else none
  else
    tryRootsLoop cwd fExists filePath roots roots

/-! ## File scanner (src/unnamed/part_002 lines 118-220) -/

/-- One discovered script file (interface `ScriptFile` of the scanner). -/
structure ScriptFile where
  absolutePath : List Char
  relativePath : List Char
  root : List Char
  size : Nat
deriving DecidableEq, Repr

/-- The fixed skip-set of directory names (`SKIP_DIRS`). -/
def SKIP_DIRS : List (List Char) :=
  [js "node_modules", js ".git", js "Intermediate", js "Saved",
   js "__pycache__", js "Binaries", js ".vscode", js ".idea"]

/-- Model of JavaScript `name.endsWith(suffix)`. -/
def endsWithL (s suf : List Char) : Bool :=
  startsWithL s.reverse suf.reverse

/-- One entry of the model directory tree walked by `scanDirectory`: a plain
file with its `statSync` size, or a subdirectory with its entries in
filesystem enumeration order. -/
inductive FSNode where
  | file (name : List Char) (size : Nat)
  | dir (name : List Char) (entries : List FSNode)

mutual
/-- Embedding of the body of the `for (const entry of entries)` loop of
`scanDirectory` (src/unnamed/part_002 lines 159-184) for a single entry.
`path.join(dir, entry.name)` is modelled as `dir ++ "/" ++ name` and
`path.relative(rootDir, fullPath)` as the accumulated relative segments
`relDir ++ name`, which agree with Node for the separator-clean absolute
paths the walk produces. -/
def scanEntry (rootDir relDir : List Char) : FSNode → List ScriptFile
  | FSNode.file name size =>
    if endsWithL name (js ".as") then
      [{ absolutePath := rootDir ++ '/' :: (relDir ++ name),
         relativePath := relDir ++ name,
         root := rootDir,
         size := size }]
    else []
  | FSNode.dir name entries =>
    if SKIP_DIRS.any (fun d => d == name) then []
    else scanEntries rootDir (relDir ++ name ++ ['/']) entries

/-- Embedding of `scanDirectory`'s iteration over a directory's entries,
accumulating results in visit order. -/
def scanEntries (rootDir relDir : List Char) : List FSNode → List ScriptFile
  | [] => []
  | e :: es => scanEntry rootDir relDir e ++ scanEntries rootDir relDir es
end

/-- Primary collation weight of one ASCII character under the root-locale
Unicode collation used by Node's default `localeCompare`: letters compare
case-insensitively at this strength (uppercase folds to lowercase). -/
def ucaPrimary (c : Char) : Nat :=
  if 65 ≤ c.toNat ∧ c.toNat ≤ 90 then c.toNat + 32 else c.toNat

/-- Tertiary (case) collation weight: lowercase sorts before uppercase. -/
def ucaTertiary (c : Char) : Nat :=
  if 65 ≤ c.toNat ∧ c.toNat ≤ 90 then 1 else 0

/-- Three-way comparison on naturals. -/
def cmpNat (a b : Nat) : Ordering :=
  if a < b then Ordering.lt else if b < a then Ordering.gt else Ordering.eq

/-- Lexicographic comparison of weight sequences. -/
def lexNat : List Nat → List Nat → Ordering
  | [], [] => Ordering.eq
  | [], _ :: _ => Ordering.lt
  | _ :: _, [] => Ordering.gt
  | a :: as, b :: bs =>
    match cmpNat a b with
    | Ordering.eq => lexNat as bs
    | o => o

/-- Modelled from platform: `a.localeCompare(b)` in Node under the default
locale, restricted to ASCII strings.  The root collation compares the
primary (case-folded) weight sequences first and falls back to the tertiary
(case) weights, so `"a" < "B"` even though `'B' < 'a'` by code point. -/
def localeOrd (a b : List Char) : Ordering :=
  match lexNat (a.map ucaPrimary) (b.map ucaPrimary) with
  | Ordering.eq => lexNat (a.map ucaTertiary) (b.map ucaTertiary)
  | o => o

/-- The comparator `(a, b) => a.relativePath.localeCompare(b.relativePath)`
read as a `≤` relation: the comparison is not `gt`. -/
def fileLe (a b : ScriptFile) : Prop :=
  localeOrd a.relativePath b.relativePath ≠ Ordering.gt

instance : DecidableRel fileLe := fun a b => by
  unfold fileLe; infer_instance

/-- Code-point lexicographic `≤` on strings (the comparator the spec
describes), for comparison with the locale-aware one the code uses. -/
def codePointLe (a b : List Char) : Prop :=
  lexNat (a.map Char.toNat) (b.map Char.toNat) ≠ Ordering.gt

instance : DecidableRel codePointLe := fun a b => by
  unfold codePointLe; infer_instance

/-- Embedding of `scanForScripts` (src/unnamed/part_002 lines 196-220).
Each root is paired with `none` when it does not exist or is not a
directory (skipped, lines 200-211) or `some entries` with its tree.
`results.sort((a, b) => a.relativePath.localeCompare(b.relativePath))` is
the stable sort by the comparator that ECMAScript specifies; it is embedded
as insertion sort, which computes exactly that stable sort. -/
def scanForScripts (roots : List (List Char × Option (List FSNode))) : List ScriptFile :=
  let results := roots.foldl
    (fun acc r =>
      match r.2 with
      | none => acc
      | some entries => acc ++ scanEntries r.1 [] entries)
    []
  List.insertionSort fileLe results

/-! ## Search engine (src/unnamed/part_001 lines 93-135 and 305-403)

`new RegExp(pattern)` and `regex.test(line)` are platform builtins; the
compiled regular expression is abstracted as a Boolean line test
`List Char → Bool`, and compilation as a function returning
`Except message test` (`new RegExp` throws on an invalid pattern). -/

/-- One match of `searchInFile`: 1-based line number, raw line content and
the rendered context block. -/
structure SearchMatch where
  line : Nat
  content : List Char
  context : List (List Char)
deriving DecidableEq, Repr

/-- The rendering `` `${j + 1}:\t${lines[j]}` `` used for context lines. -/
def renderLine (lines : List (List Char)) (j : Nat) : List Char :=
  (Nat.repr (j + 1)).data ++ ':' :: '\t' :: lines.getD j []

/-- The match record pushed for a matching 0-based index `i`
(src/unnamed/part_001 lines 106-126): context lines from
`max(0, i - contextLines)` to `i - 1`, the match line itself, then lines
`i + 1` to `min(lines.length - 1, i + contextLines)`. -/
def mkMatch (lines : List (List Char)) (contextLines : Nat) (i : Nat)
    (ln : List Char) : SearchMatch :=
  let contextBefore :=
    (List.range' (i - contextLines) (i - (i - contextLines))).map (renderLine lines)
  let contextAfter :=
    (List.range' (i + 1) (min (lines.length - 1) (i + contextLines) - i)).map
      (renderLine lines)
  { line := i + 1,
    content := ln,
    context := contextBefore ++ [renderLine lines i] ++ contextAfter }

/-- The `for (let i = 0; i < lines.length; i++)` loop of `searchInFile`,
walking the suffix of `lines` that starts at index `i`. -/
def searchGo (test : List Char → Bool) (lines : List (List Char))
    (contextLines : Nat) : Nat → List (List Char) → List SearchMatch
  | _, [] => []
  | i, ln :: rest =>
    (if test ln then [mkMatch lines contextLines i ln] else []) ++
      searchGo test lines contextLines (i + 1) rest

/-- Embedding of the content part of `searchInFile` (src/unnamed/part_001
lines 99-130): split the file into lines and collect a match with context
for every line the pattern accepts. -/
def searchInContent (test : List Char → Bool) (content : List Char)
    (contextLines : Nat) : List SearchMatch :=
  let lines := splitOnChar '\n' content
  searchGo test lines contextLines 0 lines

/-- Embedding of `searchInFile` including its `try`/`catch`
(src/unnamed/part_001 lines 93-135): `readFile` models `fs.readFileSync`,
returning `none` when the read throws, in which case the file contributes
no matches. -/
def searchInFile (readFile : List Char → Option (List Char)) (f : ScriptFile)
    (test : List Char → Bool) (contextLines : Nat) : List SearchMatch :=
  match readFile f.absolutePath with
  | none => []
  | some content => searchInContent test content contextLines

/-- A filesystem access performed by the `as_search_scripts` handler:
the `scanForScripts` walk or one `searchInFile` read. -/
inductive IOEffect where
  | scanRoots
  | readFile (p : List Char)
deriving DecidableEq, Repr

/-- The response produced by the `as_search_scripts` handler, by branch:
missing project configuration, empty root set, invalid regex pattern
(carrying the `RegExp` error message), or the search results (the pushed
result strings, the match count, and the number of scanned files). -/
inductive SearchResponse where
  | configError
  | noRootsError
  | invalidPattern (msg : List Char)
  | searchResults (results : List (List Char)) (matchCount : Nat) (fileCount : Nat)
deriving DecidableEq, Repr

/-- The `for (const match of matches)` loop (src/unnamed/part_001 lines
374-382): push the location line and the joined context for each match
until `matchCount` reaches `max_results`. -/
def pushMatches (relPath : List Char) (maxResults : Nat) :
    List SearchMatch → Nat → List (List Char) × Nat
  | [], matchCount => ([], matchCount)
  | m :: ms, matchCount =>
    if maxResults ≤ matchCount then ([], matchCount)
    else
      let rest := pushMatches relPath maxResults ms (matchCount + 1)
      ((js "\n" ++ relPath ++ js ":" ++ (Nat.repr m.line).data) ::
        List.intercalate (js "\n") m.context :: rest.1, rest.2)

/-- The `for (const file of files)` loop (src/unnamed/part_001 lines
368-383): stop before a file once the cap is reached, otherwise read and
search it, recording the read as an effect. -/
def searchFilesLoop (readFile : List Char → Option (List Char))
    (test : List Char → Bool) (contextLines maxResults : Nat) :
    List ScriptFile → Nat → List (List Char) × Nat × List IOEffect
  | [], matchCount => ([], matchCount, [])
  | f :: fs, matchCount =>
    if maxResults ≤ matchCount then ([], matchCount, [])
    else
      let ms := searchInFile readFile f test contextLines
      let pushed := pushMatches f.relativePath maxResults ms matchCount
      let rest := searchFilesLoop readFile test contextLines maxResults fs pushed.2
      (pushed.1 ++ rest.1, rest.2.1, IOEffect.readFile f.absolutePath :: rest.2.2)

/-- Embedding of the `as_search_scripts` handler (src/unnamed/part_001
lines 322-401), instrumented with the list of filesystem effects it
performs, in order.  `projectConfigured` models `config.projectPath` being
set, `rootsModel` pairs each configured root with its directory tree (as
for `scanForScripts`), and `compile` models `new RegExp`. -/
def as_search_scripts (projectConfigured : Bool)
    (rootsModel : List (List Char × Option (List FSNode)))
    (compile : List Char → Except (List Char) (List Char → Bool))
    (readFile : List Char → Option (List Char))
    (pattern : List Char) (context_lines max_results : Nat) :
    SearchResponse × List IOEffect :=
  if !projectConfigured then (SearchResponse.configError, [])
  else if (rootsModel.map Prod.fst).length == 0 then (SearchResponse.noRootsError, [])
  else
    match compile pattern with
    | Except.error msg => (SearchResponse.invalidPattern msg, [])
    | Except.ok test =>
      let files := scanForScripts rootsModel
      let res := searchFilesLoop readFile test context_lines max_results files 0
      (SearchResponse.searchResults res.1 res.2.1 files.length,
        IOEffect.scanRoots :: res.2.2)

/-! ## Commandlet runner (src/unnamed/part_002 lines 1-117)

`runCommandlet` reacts to asynchronous callbacks: stream `data` events, the
timeout timer, the process `close` event and the spawn `error` event.
Node's event loop runs these callbacks one at a time, so every execution is
a sequence of callback invocations; the runner is embedded as a state
machine folded over such an event sequence.  `timerFired` records the
one-shot nature of `setTimeout`, `killed` records that `proc.kill` was
invoked, and `resolved` holds the promise's value — a promise settles at
most once, so a second `resolve` call leaves it unchanged. -/

/-- Maximum bytes to capture per stream (1MB), `MAX_OUTPUT_SIZE`. -/
def MAX_OUTPUT_SIZE : Nat := 1024 * 1024

/-- The truncation marker appended to stdout. -/
def stdoutMarker : List Char := js "\n... [stdout truncated - exceeded 1MB limit]"

/-- The truncation marker appended to stderr. -/
def stderrMarker : List Char := js "\n... [stderr truncated - exceeded 1MB limit]"

/-- State of one captured stream: the accumulated buffer, the truncation
flag of the source, and a ghost counter of how many times the truncation
marker was appended (the source appends it inside the truncation branch, so
the counter increments exactly there). -/
structure StreamCap where
  buf : List Char
  truncated : Bool
  markerAppends : Nat
deriving DecidableEq, Repr

/-- Initial stream state (`let stdout = ""`, flag false). -/
def initCap : StreamCap := ⟨[], false, 0⟩

/-- Embedding of one `data` callback (src/unnamed/part_002 lines 57-68 and
72-83): append while under the ceiling, cutting an overfull chunk at the
remaining capacity and appending the marker once. -/
def onData (marker : List Char) (st : StreamCap) (chunk : List Char) : StreamCap :=
  if st.buf.length < MAX_OUTPUT_SIZE then
    let remaining := MAX_OUTPUT_SIZE - st.buf.length
    if remaining < chunk.length then
      ⟨st.buf ++ chunk.take remaining ++ marker, true, st.markerAppends + 1⟩
    else
      { st with buf := st.buf ++ chunk }
  else st

/-- The result record resolved by `runCommandlet`. -/
structure CommandletResult where
  exitCode : Int
  stdout : List Char
  stderr : List Char
  timedOut : Bool
deriving DecidableEq, Repr

/-- One callback invocation delivered to `runCommandlet`'s handlers. -/
inductive RunEvent where
  | stdoutData (chunk : List Char)
  | stderrData (chunk : List Char)
  | timerFire
  | procClose (code : Option Int)
  | procError (msg : List Char)
deriving DecidableEq, Repr

/-- State of one `runCommandlet` invocation between callbacks. -/
structure RunState where
  stdout : StreamCap
  stderr : StreamCap
  timedOut : Bool
  finished : Bool
  timerCleared : Bool
  timerFired : Bool
  killed : Bool
  resolved : Option CommandletResult
deriving DecidableEq, Repr

/-- State right after `spawn` returns (src/unnamed/part_002 lines 40-46). -/
def initRun : RunState :=
  { stdout := initCap, stderr := initCap, timedOut := false, finished := false,
    timerCleared := false, timerFired := false, killed := false, resolved := none }

/-- `resolve(...)` on the promise: only the first call settles it. -/
def resolveOnce (st : RunState) (r : CommandletResult) : RunState :=
  match st.resolved with
  | none => { st with resolved := some r }
  | some _ => st

/-- Embedding of the four callbacks of `runCommandlet`
(src/unnamed/part_002 lines 48-115) as a step per delivered event:
stream data feeds the bounded capture; the timer callback, when the timer
was neither cleared nor already fired, kills the process and sets
`timedOut` unless `finished`; `close` disarms the timer and resolves with
the exit code (`code ?? -1`); `error` disarms the timer and resolves with
the sentinel exit code and the spawn error appended to stderr. -/
def stepRun (st : RunState) : RunEvent → RunState
  | RunEvent.stdoutData c => { st with stdout := onData stdoutMarker st.stdout c }
  | RunEvent.stderrData c => { st with stderr := onData stderrMarker st.stderr c }
  | RunEvent.timerFire =>
    if st.timerCleared || st.timerFired then st
    else if st.finished then { st with timerFired := true }
    else { st with timerFired := true, timedOut := true, killed := true }
  | RunEvent.procClose code =>
    resolveOnce { st with finished := true, timerCleared := true }
      { exitCode := code.getD (-1), stdout := st.stdout.buf,
        stderr := st.stderr.buf, timedOut := st.timedOut }
  | RunEvent.procError msg =>
    resolveOnce { st with finished := true, timerCleared := true }
      { exitCode := -1, stdout := st.stdout.buf,
        stderr := st.stderr.buf ++ js "\nSpawn error: " ++ msg, timedOut := false }

/-- Run one `runCommandlet` invocation over a callback sequence. -/
def runEvents (events : List RunEvent) : RunState :=
  events.foldl stepRun initRun

/-- The stdout chunks of an event sequence, in order. -/
def outChunks (events : List RunEvent) : List (List Char) :=
  events.filterMap fun e =>
    match e with
    | RunEvent.stdoutData c => some c
    | _ => none

/-- The stderr chunks of an event sequence, in order. -/
def errChunks (events : List RunEvent) : List (List Char) :=
  events.filterMap fun e =>
    match e with
    | RunEvent.stderrData c => some c
    | _ => none

/-- Is the event the process `close` event? -/
def isCloseEv : RunEvent → Bool
  | RunEvent.procClose _ => true
  | _ => false

/-- Is the event the spawn `error` event? -/
def isErrorEv : RunEvent → Bool
  | RunEvent.procError _ => true
  | _ => false

/-! ## Concrete fixtures used to instantiate the theorems -/

/-- A ten-line file (no trailing newline) whose lines 1, 5 and 10 contain
the marker character searched for in the fixtures. -/
def demoContent : List Char := js "X1\na2\na3\na4\nX5\na6\na7\na8\na9\nX10"

/-- The line test used with `demoContent`. -/
def demoTest : List Char → Bool := fun l => l.contains 'X'

/-- The split lines of `demoContent`. -/
def demoLines : List (List Char) := splitOnChar '\n' demoContent

/-- A model root directory holding `B.as` and `a.as`. -/
def demoRoots : List (List Char × Option (List FSNode)) :=
  [(js "/p/Script", some [FSNode.file (js "B.as") 1, FSNode.file (js "a.as") 2])]

/-! ## Lemmas about the string primitives -/

theorem startsWithL_iff (r : List Char) : ∀ s, startsWithL s r = true ↔ ∃ t, s = r ++ t := by
  induction r with
  | nil => intro s; simp [startsWithL]
  | cons d r ih =>
    intro s
    cases s with
    | nil => simp [startsWithL]
    | cons c s' => simp [startsWithL, ih]

theorem charAtIs_append (r t : List Char) (c : Char) :
    charAtIs (r ++ t) r.length c = true ↔ t.head? = some c := by
  unfold charAtIs
  rw [List.drop_left]
  cases t <;> simp

theorem confineCheck_iff (np nr : List Char) :
    confineCheck np nr = true ↔
      ∃ rest, np = nr ++ rest ∧ (rest = [] ∨ rest.head? = some '/') := by
  unfold confineCheck
  simp only [Bool.and_eq_true, Bool.or_eq_true, startsWithL_iff, beq_iff_eq]
  constructor
  · rintro ⟨⟨t, rfl⟩, h2⟩
    refine ⟨t, rfl, ?_⟩
    rcases h2 with h2 | h2
    · left
      have ht : t.length = 0 := by
        have := List.length_append nr t
        omega
      simpa [List.length_eq_zero] using ht
    · right
      rwa [charAtIs_append] at h2
  · rintro ⟨rest, rfl, hr⟩
    refine ⟨⟨rest, rfl⟩, ?_⟩
    rcases hr with rfl | hr
    · left; simp
    · right; rw [charAtIs_append]; exact hr

/-- C3: `isPathInScriptRoots` returns true iff the normalized path falls
under some normalized root with the remainder after the root either empty
or beginning with a path separator; a sibling directory that merely shares
a string prefix with a root (`/proj/Script2` vs root `/proj/Script`) is
never accepted. -/
theorem C3_confinement :
    (∀ p roots, isPathInScriptRoots p roots = true ↔
      ∃ root ∈ roots, ∃ rest : List Char,
        pathNormalize p = pathNormalize root ++ rest ∧
        (rest = [] ∨ rest.head? = some '/')) ∧
    isPathInScriptRoots (js "/proj/Script2/x.as") [js "/proj/Script"] = false := by
  refine ⟨fun p roots => ?_, by decide⟩
  unfold isPathInScriptRoots
  simp only [List.any_eq_true, confineCheck_iff]

theorem tryRootsLoop_some (cwd : List Char) (fE : List Char → Bool) (fp : List Char)
    (allRoots : List (List Char)) :
    ∀ rs res, tryRootsLoop cwd fE fp allRoots rs = some res →
      res.root ∈ rs ∧ isPathInScriptRoots res.absolutePath allRoots = true ∧
        fE res.absolutePath = true := by
  intro rs
  induction rs with
  | nil => intro res h; simp [tryRootsLoop] at h
  | cons root rest ih =>
    intro res h
    simp only [tryRootsLoop] at h
    split at h
    · rename_i hcond
      rw [Bool.and_eq_true] at hcond
      cases h
      exact ⟨List.mem_cons_self _ _, hcond.1, hcond.2⟩
    · have := ih res h
      exact ⟨List.mem_cons_of_mem _ this.1, this.2.1, this.2.2⟩

/-- C1 (amended): whenever `resolveScriptPath` returns `{absolutePath, root}`,
the returned root is a member of the root set and `absolutePath` exists and
is confined to some root of the set — not necessarily the returned one. -/
theorem C1_resolve_inside_roots :
    ∀ cwd fE fp roots res, resolveScriptPath cwd fE fp roots = some res →
      res.root ∈ roots ∧ isPathInScriptRoots res.absolutePath roots = true ∧
        fE res.absolutePath = true := by
  intro cwd fE fp roots res h
  unfold resolveScriptPath at h
  by_cases habs : isAbsolutePath fp = true
  · rw [if_pos habs] at h
    by_cases hc : (isPathInScriptRoots fp roots && fE fp) = true
    · rw [if_pos hc] at h
      rcases hfind : roots.find? (fun r => startsWithL (pathNormalize fp) (pathNormalize r)) with
        _ | root
      · rw [hfind] at h; cases h
      · rw [hfind] at h
        rw [Bool.and_eq_true] at hc
        cases h
        exact ⟨List.mem_of_find?_eq_some hfind, hc.1, hc.2⟩
    · rw [if_neg hc] at h; cases h
  · rw [if_neg habs] at h
    exact tryRootsLoop_some cwd fE fp roots roots res h

/-- C1 counterexample: the claim's guarantees fail on the code.  For the
absolute candidate `/a/Script/x.as` with roots `["/a/Scr", "/a/Script"]`
the root is selected by bare `startsWith` without the separator-boundary
check, so the sibling root `/a/Scr` is returned even though it does not
confine the path; and the relative candidate `../R2/x.as` resolved against
root `/a/R1` is silently normalized into the different root `/a/R2` and
accepted, with a returned root that does not confine the result. -/
theorem C1_counterexample :
    resolveScriptPath (js "/") (fun p => p == js "/a/Script/x.as")
        (js "/a/Script/x.as") [js "/a/Scr", js "/a/Script"] =
      some ⟨js "/a/Script/x.as", js "/a/Scr"⟩ ∧
    isPathInScriptRoots (js "/a/Script/x.as") [js "/a/Scr"] = false ∧
    resolveScriptPath (js "/") (fun p => p == js "/a/R2/x.as")
        (js "../R2/x.as") [js "/a/R1", js "/a/R2"] =
      some ⟨js "/a/R2/x.as", js "/a/R1"⟩ ∧
    isPathInScriptRoots (js "/a/R2/x.as") [js "/a/R1"] = false := by
  refine ⟨by decide, by decide, by decide, by decide⟩

/-- C1 witness: the amended guarantee at a concrete input. -/
theorem C1_resolve_inside_roots_witness :
    (⟨js "/r/x.as", js "/r"⟩ : ResolvedPath).root ∈ [js "/r"] ∧
    isPathInScriptRoots (⟨js "/r/x.as", js "/r"⟩ : ResolvedPath).absolutePath [js "/r"] = true ∧
    (fun p => p == js "/r/x.as") (⟨js "/r/x.as", js "/r"⟩ : ResolvedPath).absolutePath = true :=
  C1_resolve_inside_roots (js "/") (fun p => p == js "/r/x.as") (js "/r/x.as") [js "/r"]
    ⟨js "/r/x.as", js "/r"⟩ (by decide)

theorem tryRootsLoop_none (cwd : List Char) (fE : List Char → Bool) (fp : List Char)
    (allRoots : List (List Char)) :
    ∀ rs, (∀ root ∈ rs,
        isPathInScriptRoots (pathResolve cwd [root, fp]) allRoots = false ∨
          fE (pathResolve cwd [root, fp]) = false) →
      tryRootsLoop cwd fE fp allRoots rs = none := by
  intro rs
  induction rs with
  | nil => intro _; simp [tryRootsLoop]
  | cons root rest ih =>
    intro h
    simp only [tryRootsLoop]
    rw [if_neg]
    · exact ih fun r hr => h r (List.mem_cons_of_mem _ hr)
    · have := h root (List.mem_cons_self _ _)
      rcases this with h1 | h1 <;> simp [h1]

/-- C6: `resolveScriptPath` returns `none` (`NotFound`) whenever no root
yields an existing, confined match — a missing file and an existing file
outside every root are indistinguishable in the result — and an empty
roots list always yields `none`.  The embedding is a total function, so no
input ever produces a fault. -/
theorem C6_notfound :
    (∀ cwd fE fp, resolveScriptPath cwd fE fp [] = none) ∧
    (∀ cwd fE fp roots, isAbsolutePath fp = true →
      isPathInScriptRoots fp roots = false ∨ fE fp = false →
      resolveScriptPath cwd fE fp roots = none) ∧
    (∀ cwd fE fp roots, isAbsolutePath fp = false →
      (∀ root ∈ roots,
        isPathInScriptRoots (pathResolve cwd [root, fp]) roots = false ∨
          fE (pathResolve cwd [root, fp]) = false) →
      resolveScriptPath cwd fE fp roots = none) := by
  refine ⟨?_, ?_, ?_⟩
  · intro cwd fE fp
    unfold resolveScriptPath
    by_cases habs : isAbsolutePath fp = true
    · rw [if_pos habs, if_neg]
      simp [isPathInScriptRoots]
    · rw [if_neg habs]
      simp [tryRootsLoop]
  · intro cwd fE fp roots habs h
    unfold resolveScriptPath
    rw [if_pos habs, if_neg]
    rcases h with h1 | h1 <;> simp [h1]
  · intro cwd fE fp roots habs h
    unfold resolveScriptPath
    rw [if_neg (by simp [habs])]
    exact tryRootsLoop_none cwd fE fp roots roots h

/-- C6 witness: concrete instances of all three guarantees. -/
theorem C6_notfound_witness :
    resolveScriptPath (js "/") (fun _ => true) (js "/q/x.as") [] = none ∧
    resolveScriptPath (js "/") (fun _ => false) (js "/r/x.as") [js "/r"] = none ∧
    resolveScriptPath (js "/") (fun _ => false) (js "x.as") [js "/r"] = none :=
  ⟨C6_notfound.1 (js "/") (fun _ => true) (js "/q/x.as"),
   C6_notfound.2.1 (js "/") (fun _ => false) (js "/r/x.as") [js "/r"] (by decide)
     (Or.inr rfl),
   C6_notfound.2.2 (js "/") (fun _ => false) (js "x.as") [js "/r"] (by decide)
     (fun root _ => Or.inr rfl)⟩

/-! ## Search engine theorems -/

theorem searchGo_length (test : List Char → Bool) (lines : List (List Char)) (N : Nat) :
    ∀ rest i, (searchGo test lines N i rest).length = rest.countP test := by
  intro rest
  induction rest with
  | nil => intro i; simp [searchGo]
  | cons ln rest ih =>
    intro i
    by_cases h : test ln = true <;>
      simp [searchGo, h, ih, List.countP_cons]

/-- C10: a matching line produces exactly one `SearchMatch` regardless of
how many positions inside the line match — the number of matches equals
the number of matching lines.  The compiled regular expression is
abstracted as the per-line Boolean test `test` (the source calls
`pattern.test(lines[i])` once per line), so the count is the number of
accepted lines by construction; concretely, a single line containing two
occurrences still yields one match. -/
theorem C10_line_granularity :
    (∀ test content N,
      (searchInContent test content N).length = (splitOnChar '\n' content).countP test) ∧
    (searchInContent (fun l => l.contains 'f') (js "ff") 0).length = 1 := by
  refine ⟨fun test content N => ?_, by decide⟩
  exact searchGo_length test (splitOnChar '\n' content) N (splitOnChar '\n' content) 0

theorem searchGo_mem (test : List Char → Bool) (lines : List (List Char)) (N : Nat) :
    ∀ rest i m, rest = lines.drop i → m ∈ searchGo test lines N i rest →
      ∃ j, i ≤ j ∧ j < lines.length ∧ test (lines.getD j []) = true ∧
        m = mkMatch lines N j (lines.getD j []) := by
  intro rest
  induction rest with
  | nil => intro i m _ hm; simp [searchGo] at hm
  | cons ln rest ih =>
    intro i m hdrop hm
    have hi : i < lines.length := by
      by_contra hge
      rw [List.drop_eq_nil_iff.mpr (by omega)] at hdrop
      exact absurd hdrop (by simp)
    have hcons := List.drop_eq_getElem_cons hi
    rw [hcons] at hdrop
    injection hdrop with hln hrest
    have hgetD : lines.getD i [] = lines[i] := List.getD_eq_getElem lines [] hi
    simp only [searchGo] at hm
    rw [List.mem_append] at hm
    rcases hm with hm | hm
    · cases ht : test ln with
      | false => rw [ht] at hm; simp at hm
      | true =>
        rw [ht] at hm
        simp at hm
        subst hm
        refine ⟨i, le_refl _, hi, ?_, ?_⟩
        · rw [hgetD, ← hln]; exact ht
        · rw [hgetD, ← hln]
    · obtain ⟨j, hij, hj, htj, hmj⟩ := ih (i + 1) m hrest hm
      exact ⟨j, by omega, hj, htj, hmj⟩

/-- C7: every match of `searchInContent` carries context lines spanning
exactly the 1-based interval from `max 1 (line - N)` to
`min L (line + N)` (the window `[line - N, line + N]` clamped to the file
bounds), rendered in order with the match line at its correct position. -/
theorem C7_context_window :
    ∀ (test : List Char → Bool) (content : List Char) (N : Nat) (m : SearchMatch),
      m ∈ searchInContent test content N →
      1 ≤ m.line ∧ m.line ≤ (splitOnChar '\n' content).length ∧
      m.context =
        (List.range' (max 1 (m.line - N))
            (min ((splitOnChar '\n' content).length) (m.line + N) + 1 -
              max 1 (m.line - N))).map
          (fun ln => renderLine (splitOnChar '\n' content) (ln - 1)) := by
  intro test content N m hm
  have hm' : m ∈ searchGo test (splitOnChar '\n' content) N 0 (splitOnChar '\n' content) := hm
  obtain ⟨j, _, hj, _, hmeq⟩ :=
    searchGo_mem test (splitOnChar '\n' content) N (splitOnChar '\n' content) 0 m (by simp) hm'
  subst hmeq
  refine ⟨by simp [mkMatch], by simp [mkMatch]; omega, ?_⟩
  show ((List.range' (j - N) (j - (j - N))).map (renderLine (splitOnChar '\n' content)) ++
      [renderLine (splitOnChar '\n' content) j] ++
      (List.range' (j + 1)
          (min ((splitOnChar '\n' content).length - 1) (j + N) - j)).map
        (renderLine (splitOnChar '\n' content))) = _
  simp only [mkMatch]
  rw [show [renderLine (splitOnChar '\n' content) j] =
      (List.range' j 1).map (renderLine (splitOnChar '\n' content)) by simp]
  rw [← List.map_append, ← List.map_append]
  have e1 := List.range'_append (j - N) (j - (j - N)) 1 1
  rw [Nat.one_mul, show (j - N) + (j - (j - N)) = j from by omega] at e1
  rw [e1]
  have e2 := List.range'_append (j - N) (1 + (j - (j - N)))
    (min ((splitOnChar '\n' content).length - 1) (j + N) - j) 1
  rw [Nat.one_mul, show (j - N) + (1 + (j - (j - N))) = j + 1 from by omega] at e2
  rw [e2]
  have hlo : max 1 (j + 1 - N) = 1 + (j - N) := by omega
  rw [hlo]
  have hlen : min ((splitOnChar '\n' content).length) (j + 1 + N) + 1 - (1 + (j - N)) =
      (min ((splitOnChar '\n' content).length - 1) (j + N) - j) + (1 + (j - (j - N))) := by
    omega
  rw [hlen, ← List.map_add_range' 1 (j - N)
    ((min ((splitOnChar '\n' content).length - 1) (j + N) - j) + (1 + (j - (j - N)))) 1,
    List.map_map]
  refine (List.map_congr_left ?_).symm
  intro a _
  simp [Function.comp]

/-- C7 witness: with context radius 2 on the ten-line fixture, the matches
at lines 1, 5 and 10 satisfy the clamped-window guarantee. -/
theorem C7_context_window_witness :
    (1 ≤ (mkMatch demoLines 2 0 (demoLines.getD 0 [])).line ∧
      (mkMatch demoLines 2 0 (demoLines.getD 0 [])).line ≤
        (splitOnChar '\n' demoContent).length ∧
      (mkMatch demoLines 2 0 (demoLines.getD 0 [])).context =
        (List.range' (max 1 ((mkMatch demoLines 2 0 (demoLines.getD 0 [])).line - 2))
            (min ((splitOnChar '\n' demoContent).length)
                ((mkMatch demoLines 2 0 (demoLines.getD 0 [])).line + 2) + 1 -
              max 1 ((mkMatch demoLines 2 0 (demoLines.getD 0 [])).line - 2))).map
          (fun ln => renderLine (splitOnChar '\n' demoContent) (ln - 1))) ∧
    (1 ≤ (mkMatch demoLines 2 4 (demoLines.getD 4 [])).line ∧
      (mkMatch demoLines 2 4 (demoLines.getD 4 [])).line ≤
        (splitOnChar '\n' demoContent).length ∧
      (mkMatch demoLines 2 4 (demoLines.getD 4 [])).context =
        (List.range' (max 1 ((mkMatch demoLines 2 4 (demoLines.getD 4 [])).line - 2))
            (min ((splitOnChar '\n' demoContent).length)
                ((mkMatch demoLines 2 4 (demoLines.getD 4 [])).line + 2) + 1 -
              max 1 ((mkMatch demoLines 2 4 (demoLines.getD 4 [])).line - 2))).map
          (fun ln => renderLine (splitOnChar '\n' demoContent) (ln - 1))) ∧
    (1 ≤ (mkMatch demoLines 2 9 (demoLines.getD 9 [])).line ∧
      (mkMatch demoLines 2 9 (demoLines.getD 9 [])).line ≤
        (splitOnChar '\n' demoContent).length ∧
      (mkMatch demoLines 2 9 (demoLines.getD 9 [])).context =
        (List.range' (max 1 ((mkMatch demoLines 2 9 (demoLines.getD 9 [])).line - 2))
            (min ((splitOnChar '\n' demoContent).length)
                ((mkMatch demoLines 2 9 (demoLines.getD 9 [])).line + 2) + 1 -
              max 1 ((mkMatch demoLines 2 9 (demoLines.getD 9 [])).line - 2))).map
          (fun ln => renderLine (splitOnChar '\n' demoContent) (ln - 1))) :=
  ⟨C7_context_window demoTest demoContent 2 _ (by decide),
   C7_context_window demoTest demoContent 2 _ (by decide),
   C7_context_window demoTest demoContent 2 _ (by decide)⟩

/-! ## Collation lemmas and scanner ordering -/

theorem cmpNat_eq_iff (a b : Nat) : cmpNat a b = Ordering.eq ↔ a = b := by
  unfold cmpNat
  rcases Nat.lt_trichotomy a b with h | h | h
  · rw [if_pos h]; simp; omega
  · subst h; rw [if_neg (lt_irrefl a), if_neg (lt_irrefl a)]; simp
  · rw [if_neg (by omega), if_pos h]; simp; omega

theorem cmpNat_lt_iff (a b : Nat) : cmpNat a b = Ordering.lt ↔ a < b := by
  unfold cmpNat
  rcases Nat.lt_trichotomy a b with h | h | h
  · rw [if_pos h]; simp; omega
  · subst h; rw [if_neg (lt_irrefl a), if_neg (lt_irrefl a)]; simp
  · rw [if_neg (by omega), if_pos h]; simp; omega

theorem cmpNat_swap (a b : Nat) : cmpNat b a = (cmpNat a b).swap := by
  unfold cmpNat
  rcases Nat.lt_trichotomy a b with h | h | h
  · rw [if_neg (by omega), if_pos h, if_pos h]; rfl
  · subst h; rw [if_neg (lt_irrefl a), if_neg (lt_irrefl a)]; rfl
  · rw [if_pos h, if_neg (by omega), if_pos h]; rfl

theorem lexNat_eq_iff (a : List Nat) : ∀ b, lexNat a b = Ordering.eq ↔ a = b := by
  induction a with
  | nil => intro b; cases b <;> simp [lexNat]
  | cons x xs ih =>
    intro b
    cases b with
    | nil => simp [lexNat]
    | cons y ys =>
      simp only [lexNat]
      cases h : cmpNat x y with
      | lt =>
        refine ⟨fun hE => by simp at hE, fun hEq => ?_⟩
        injection hEq with h1 h2
        subst h1
        rw [(cmpNat_eq_iff x x).mpr rfl] at h
        exact absurd h (by simp)
      | eq =>
        have hxy := (cmpNat_eq_iff x y).mp h
        subst hxy
        simp [ih ys]
      | gt =>
        refine ⟨fun hE => by simp at hE, fun hEq => ?_⟩
        injection hEq with h1 h2
        subst h1
        rw [(cmpNat_eq_iff x x).mpr rfl] at h
        exact absurd h (by simp)

theorem lexNat_swap (a : List Nat) : ∀ b, lexNat b a = (lexNat a b).swap := by
  induction a with
  | nil => intro b; cases b <;> rfl
  | cons x xs ih =>
    intro b
    cases b with
    | nil => rfl
    | cons y ys =>
      simp only [lexNat]
      rw [cmpNat_swap x y]
      cases h : cmpNat x y with
      | lt => rfl
      | gt => rfl
      | eq => exact ih ys

theorem lexNat_le_trans (a : List Nat) :
    ∀ b c, lexNat a b ≠ Ordering.gt → lexNat b c ≠ Ordering.gt →
      lexNat a c ≠ Ordering.gt := by
  induction a with
  | nil => intro b c _ _; cases c <;> simp [lexNat]
  | cons x xs ih =>
    intro b c h1 h2
    cases b with
    | nil => simp [lexNat] at h1
    | cons y ys =>
      cases c with
      | nil => simp [lexNat] at h2
      | cons z zs =>
        simp only [lexNat] at h1 h2 ⊢
        cases hxy : cmpNat x y with
        | gt => simp [hxy] at h1
        | lt =>
          have hx : x < y := (cmpNat_lt_iff x y).mp hxy
          have hyz : y ≤ z := by
            cases hyz' : cmpNat y z with
            | gt => simp [hyz'] at h2
            | lt => exact le_of_lt ((cmpNat_lt_iff y z).mp hyz')
            | eq => exact le_of_eq ((cmpNat_eq_iff y z).mp hyz')
          have hxz : cmpNat x z = Ordering.lt := (cmpNat_lt_iff x z).mpr (by omega)
          simp [hxz]
        | eq =>
          have hxy' := (cmpNat_eq_iff x y).mp hxy
          subst hxy'
          rw [hxy] at h1
          cases hyz : cmpNat x z with
          | gt => simp [hyz] at h2
          | lt => simp
          | eq =>
            rw [hyz] at h2
            exact ih ys zs h1 h2

theorem localeOrd_swap (a b : List Char) : localeOrd b a = (localeOrd a b).swap := by
  unfold localeOrd
  rw [lexNat_swap (a.map ucaPrimary) (b.map ucaPrimary)]
  cases h : lexNat (a.map ucaPrimary) (b.map ucaPrimary) with
  | lt => rfl
  | gt => rfl
  | eq => exact lexNat_swap (a.map ucaTertiary) (b.map ucaTertiary)

theorem localeOrd_ne_gt (a b : List Char) :
    localeOrd a b ≠ Ordering.gt ↔
      (lexNat (a.map ucaPrimary) (b.map ucaPrimary) = Ordering.lt ∨
        (a.map ucaPrimary = b.map ucaPrimary ∧
          lexNat (a.map ucaTertiary) (b.map ucaTertiary) ≠ Ordering.gt)) := by
  unfold localeOrd
  cases h : lexNat (a.map ucaPrimary) (b.map ucaPrimary) with
  | lt => simp [h]
  | eq => simp [h, (lexNat_eq_iff _ _).mp h]
  | gt =>
    simp only [h]
    constructor
    · intro hC; exact absurd rfl hC
    · rintro (hL | ⟨hEq, _⟩)
      · exact absurd hL (by simp)
      · rw [(lexNat_eq_iff _ _).mpr hEq] at h; exact absurd h (by simp)

theorem fileLe_total (a b : ScriptFile) : fileLe a b ∨ fileLe b a := by
  unfold fileLe
  by_cases h : localeOrd a.relativePath b.relativePath = Ordering.gt
  · right
    rw [localeOrd_swap, h]
    simp [Ordering.swap]
  · left; exact h

theorem fileLe_trans (a b c : ScriptFile) : fileLe a b → fileLe b c → fileLe a c := by
  unfold fileLe
  rw [localeOrd_ne_gt, localeOrd_ne_gt, localeOrd_ne_gt]
  rintro (hab | ⟨habP, habT⟩) (hbc | ⟨hbcP, hbcT⟩)
  · have hle : lexNat (a.relativePath.map ucaPrimary) (c.relativePath.map ucaPrimary) ≠
        Ordering.gt := by
      refine lexNat_le_trans _ _ _ (by rw [hab]; simp) (by rw [hbc]; simp)
    cases hac : lexNat (a.relativePath.map ucaPrimary) (c.relativePath.map ucaPrimary) with
    | lt => exact Or.inl rfl
    | gt => exact absurd hac hle
    | eq =>
      exfalso
      have hEq := (lexNat_eq_iff _ _).mp hac
      rw [← hEq] at hbc
      rw [lexNat_swap] at hab
      rw [hbc] at hab
      exact absurd hab (by simp [Ordering.swap])
  · left; rwa [← hbcP]
  · left; rwa [habP]
  · exact Or.inr ⟨habP.trans hbcP, lexNat_le_trans _ _ _ habT hbcT⟩

/-- C2 (amended): the sequence returned by `scanForScripts` is sorted by
`relativePath` under the comparator the code actually uses —
`localeCompare`, the locale-aware default collation, not a code-point
lexicographic comparator — for every model filesystem, hence independently
of enumeration order and of which root produced each entry; in particular a
root containing `B.as` and `a.as` yields `a.as` before `B.as` because the
collation orders `"a.as"` strictly before `"B.as"`. -/
theorem C2_scan_sorted :
    (∀ roots, List.Pairwise fileLe (scanForScripts roots)) ∧
    (scanForScripts demoRoots).map (fun f => f.relativePath) = [js "a.as", js "B.as"] ∧
    localeOrd (js "a.as") (js "B.as") = Ordering.lt := by
  refine ⟨fun roots => ?_, by decide, by decide⟩
  haveI : IsTotal ScriptFile fileLe := ⟨fileLe_total⟩
  haveI : IsTrans ScriptFile fileLe := ⟨fileLe_trans⟩
  exact List.sorted_insertionSort fileLe _

/-- C2 counterexample: on a root holding `B.as` and `a.as` the scan returns
`a.as` first, which is not sorted under the code-point lexicographic
comparator (`"B.as"` precedes `"a.as"` by code point), refuting the claim
that the output is code-point sorted. -/
theorem C2_counterexample :
    (scanForScripts demoRoots).map (fun f => f.relativePath) = [js "a.as", js "B.as"] ∧
    codePointLe (js "B.as") (js "a.as") ∧
    ¬ codePointLe (js "a.as") (js "B.as") ∧
    ¬ List.Pairwise (fun f g => codePointLe f.relativePath g.relativePath)
        (scanForScripts demoRoots) := by
  refine ⟨by decide, by decide, by decide, by decide⟩

/-! ## Commandlet runner theorems -/

theorem onData_frozen (marker : List Char) (st : StreamCap) (c : List Char)
    (h : MAX_OUTPUT_SIZE ≤ st.buf.length) : onData marker st c = st := by
  simp only [onData]
  rw [if_neg (by omega)]

theorem onData_inv (marker : List Char) (st : StreamCap) (c : List Char)
    (h1 : st.truncated = false → st.markerAppends = 0 ∧ st.buf.length ≤ MAX_OUTPUT_SIZE)
    (h2 : st.truncated = true → st.markerAppends = 1 ∧
      st.buf.length = MAX_OUTPUT_SIZE + marker.length) :
    ((onData marker st c).truncated = false → (onData marker st c).markerAppends = 0 ∧
      (onData marker st c).buf.length ≤ MAX_OUTPUT_SIZE) ∧
    ((onData marker st c).truncated = true → (onData marker st c).markerAppends = 1 ∧
      (onData marker st c).buf.length = MAX_OUTPUT_SIZE + marker.length) := by
  simp only [onData]
  by_cases hlt : st.buf.length < MAX_OUTPUT_SIZE
  · rw [if_pos hlt]
    have hst : st.truncated = false := by
      cases hT : st.truncated
      · rfl
      · have := (h2 hT).2; omega
    obtain ⟨hA, hB⟩ := h1 hst
    by_cases hc : MAX_OUTPUT_SIZE - st.buf.length < c.length
    · rw [if_pos hc]
      refine ⟨fun h => by simp at h, fun _ => ⟨by simp [hA], ?_⟩⟩
      simp only [List.length_append, List.length_take]
      omega
    · rw [if_neg hc]
      refine ⟨fun _ => ⟨by simp [hA], ?_⟩, fun hT => ?_⟩
      · simp only [List.length_append]
        omega
      · simp only at hT
        rw [hst] at hT
        exact absurd hT (by simp)
  · rw [if_neg hlt]
    exact ⟨h1, h2⟩

theorem onData_foldl_inv (marker : List Char) :
    ∀ (chunks : List (List Char)) (st : StreamCap),
      (st.truncated = false → st.markerAppends = 0 ∧ st.buf.length ≤ MAX_OUTPUT_SIZE) →
      (st.truncated = true → st.markerAppends = 1 ∧
        st.buf.length = MAX_OUTPUT_SIZE + marker.length) →
      ((chunks.foldl (onData marker) st).truncated = false →
        (chunks.foldl (onData marker) st).markerAppends = 0 ∧
        (chunks.foldl (onData marker) st).buf.length ≤ MAX_OUTPUT_SIZE) ∧
      ((chunks.foldl (onData marker) st).truncated = true →
        (chunks.foldl (onData marker) st).markerAppends = 1 ∧
        (chunks.foldl (onData marker) st).buf.length = MAX_OUTPUT_SIZE + marker.length) := by
  intro chunks
  induction chunks with
  | nil => intro st h1 h2; exact ⟨h1, h2⟩
  | cons c cs ih =>
    intro st h1 h2
    have h := onData_inv marker st c h1 h2
    exact ih (onData marker st c) h.1 h.2

theorem resolveOnce_stdout (st : RunState) (r : CommandletResult) :
    (resolveOnce st r).stdout = st.stdout := by
  cases h : st.resolved <;> simp [resolveOnce, h]

theorem resolveOnce_stderr (st : RunState) (r : CommandletResult) :
    (resolveOnce st r).stderr = st.stderr := by
  cases h : st.resolved <;> simp [resolveOnce, h]

theorem resolveOnce_killed (st : RunState) (r : CommandletResult) :
    (resolveOnce st r).killed = st.killed := by
  cases h : st.resolved <;> simp [resolveOnce, h]

theorem resolveOnce_timedOut (st : RunState) (r : CommandletResult) :
    (resolveOnce st r).timedOut = st.timedOut := by
  cases h : st.resolved <;> simp [resolveOnce, h]

theorem resolveOnce_timerCleared (st : RunState) (r : CommandletResult) :
    (resolveOnce st r).timerCleared = st.timerCleared := by
  cases h : st.resolved <;> simp [resolveOnce, h]

theorem resolveOnce_resolved_none (st : RunState) (r : CommandletResult)
    (h : st.resolved = none) : (resolveOnce st r).resolved = some r := by
  simp [resolveOnce, h]

theorem resolveOnce_resolved_some (st : RunState) (r r0 : CommandletResult)
    (h : st.resolved = some r0) : (resolveOnce st r).resolved = some r0 := by
  simp [resolveOnce, h]

theorem resolveOnce_isSome (st : RunState) (r : CommandletResult) :
    ((resolveOnce st r).resolved).isSome = true := by
  cases h : st.resolved <;> simp [resolveOnce, h]

theorem foldl_stepRun_stdout :
    ∀ (evs : List RunEvent) (st : RunState),
      (evs.foldl stepRun st).stdout = (outChunks evs).foldl (onData stdoutMarker) st.stdout := by
  intro evs
  induction evs with
  | nil => intro st; rfl
  | cons e rest ih =>
    intro st
    cases e with
    | stdoutData c => simp [List.foldl_cons, stepRun, outChunks, List.filterMap_cons, ih]
    | stderrData c => simp [List.foldl_cons, stepRun, outChunks, List.filterMap_cons, ih]
    | timerFire =>
      rw [List.foldl_cons, ih]
      have : (stepRun st RunEvent.timerFire).stdout = st.stdout := by
        simp only [stepRun]
        split
        · rfl
        · split <;> rfl
      rw [this]
      rfl
    | procClose code =>
      rw [List.foldl_cons, ih]
      rw [show (stepRun st (RunEvent.procClose code)).stdout = st.stdout from by
        simp only [stepRun]; rw [resolveOnce_stdout]]
      rfl
    | procError msg =>
      rw [List.foldl_cons, ih]
      rw [show (stepRun st (RunEvent.procError msg)).stdout = st.stdout from by
        simp only [stepRun]; rw [resolveOnce_stdout]]
      rfl

theorem foldl_stepRun_stderr :
    ∀ (evs : List RunEvent) (st : RunState),
      (evs.foldl stepRun st).stderr = (errChunks evs).foldl (onData stderrMarker) st.stderr := by
  intro evs
  induction evs with
  | nil => intro st; rfl
  | cons e rest ih =>
    intro st
    cases e with
    | stdoutData c => simp [List.foldl_cons, stepRun, errChunks, List.filterMap_cons, ih]
    | stderrData c => simp [List.foldl_cons, stepRun, errChunks, List.filterMap_cons, ih]
    | timerFire =>
      rw [List.foldl_cons, ih]
      have : (stepRun st RunEvent.timerFire).stderr = st.stderr := by
        simp only [stepRun]
        split
        · rfl
        · split <;> rfl
      rw [this]
      rfl
    | procClose code =>
      rw [List.foldl_cons, ih]
      rw [show (stepRun st (RunEvent.procClose code)).stderr = st.stderr from by
        simp only [stepRun]; rw [resolveOnce_stderr]]
      rfl
    | procError msg =>
      rw [List.foldl_cons, ih]
      rw [show (stepRun st (RunEvent.procError msg)).stderr = st.stderr from by
        simp only [stepRun]; rw [resolveOnce_stderr]]
      rfl

/-- C4 (amended): each stream's capture is a fold of that stream's own
chunks (so the other stream does not affect it); the buffer never exceeds
the ceiling plus the marker length; the marker is appended at most once,
exactly when the truncation branch ran; and once the buffer has reached the
ceiling every further chunk is dropped.  When a chunk exactly fills the
buffer to the ceiling, later data is dropped without a marker (see the
counterexample), so the marker is appended exactly once precisely when some
chunk overflowed the remaining capacity. -/
theorem C4_output_bounding :
    (∀ evs : List RunEvent,
      (runEvents evs).stdout = (outChunks evs).foldl (onData stdoutMarker) initCap ∧
      (runEvents evs).stderr = (errChunks evs).foldl (onData stderrMarker) initCap) ∧
    (∀ (marker : List Char) (chunks : List (List Char)),
      (chunks.foldl (onData marker) initCap).buf.length ≤
          MAX_OUTPUT_SIZE + marker.length ∧
      (chunks.foldl (onData marker) initCap).markerAppends ≤ 1 ∧
      ((chunks.foldl (onData marker) initCap).truncated = true ↔
        (chunks.foldl (onData marker) initCap).markerAppends = 1)) ∧
    (∀ (marker : List Char) (st : StreamCap) (c : List Char),
      MAX_OUTPUT_SIZE ≤ st.buf.length → onData marker st c = st) := by
  refine ⟨?_, ?_, onData_frozen⟩
  · intro evs
    exact ⟨foldl_stepRun_stdout evs initRun, foldl_stepRun_stderr evs initRun⟩
  · intro marker chunks
    obtain ⟨hF, hT⟩ := onData_foldl_inv marker chunks initCap
      (fun _ => ⟨rfl, by simp [initCap]⟩) (fun h => by simp [initCap] at h)
    cases htr : (chunks.foldl (onData marker) initCap).truncated
    · obtain ⟨hA, hB⟩ := hF htr
      refine ⟨by omega, by omega, ?_⟩
      rw [hA]
      simp
    · obtain ⟨hA, hB⟩ := hT htr
      refine ⟨by omega, by omega, ?_⟩
      rw [hA]
      simp

/-- C4 witness: a full buffer drops a further chunk unchanged. -/
theorem C4_output_bounding_witness :
    onData stdoutMarker ⟨List.replicate MAX_OUTPUT_SIZE 'x', false, 0⟩ (js "y") =
      ⟨List.replicate MAX_OUTPUT_SIZE 'x', false, 0⟩ :=
  C4_output_bounding.2.2 stdoutMarker ⟨List.replicate MAX_OUTPUT_SIZE 'x', false, 0⟩
    (js "y") (by rw [List.length_replicate])

/-- C4 counterexample: a chunk that exactly fills the buffer to the 1 MiB
ceiling followed by one more byte of data leaves the buffer at the ceiling
with the extra data dropped and the truncation marker appended zero times —
not exactly once as the claim states. -/
theorem C4_counterexample :
    (runEvents [RunEvent.stdoutData (List.replicate MAX_OUTPUT_SIZE 'x'),
        RunEvent.stdoutData (js "y")]).stdout.buf = List.replicate MAX_OUTPUT_SIZE 'x' ∧
    (runEvents [RunEvent.stdoutData (List.replicate MAX_OUTPUT_SIZE 'x'),
        RunEvent.stdoutData (js "y")]).stdout.markerAppends = 0 ∧
    (runEvents [RunEvent.stdoutData (List.replicate MAX_OUTPUT_SIZE 'x'),
        RunEvent.stdoutData (js "y")]).stdout.truncated = false := by
  have h1 : onData stdoutMarker initCap (List.replicate MAX_OUTPUT_SIZE 'x') =
      ⟨List.replicate MAX_OUTPUT_SIZE 'x', false, 0⟩ := by
    simp only [onData]
    rw [show initCap.buf.length = 0 from rfl]
    rw [if_pos (by decide : (0:Nat) < MAX_OUTPUT_SIZE)]
    rw [List.length_replicate]
    rw [if_neg (by omega)]
    rfl
  have h2 : onData stdoutMarker ⟨List.replicate MAX_OUTPUT_SIZE 'x', false, 0⟩ (js "y") =
      ⟨List.replicate MAX_OUTPUT_SIZE 'x', false, 0⟩ :=
    onData_frozen _ _ _ (by rw [List.length_replicate])
  have s1 : stepRun initRun (RunEvent.stdoutData (List.replicate MAX_OUTPUT_SIZE 'x')) =
      { initRun with stdout := ⟨List.replicate MAX_OUTPUT_SIZE 'x', false, 0⟩ } := by
    simp only [stepRun]
    rw [show initRun.stdout = initCap from rfl, h1]
  have s2 : stepRun { initRun with stdout := ⟨List.replicate MAX_OUTPUT_SIZE 'x', false, 0⟩ }
        (RunEvent.stdoutData (js "y")) =
      { initRun with stdout := ⟨List.replicate MAX_OUTPUT_SIZE 'x', false, 0⟩ } := by
    simp only [stepRun]
    rw [h2]
  rw [show runEvents [RunEvent.stdoutData (List.replicate MAX_OUTPUT_SIZE 'x'),
        RunEvent.stdoutData (js "y")] =
      stepRun (stepRun initRun (RunEvent.stdoutData (List.replicate MAX_OUTPUT_SIZE 'x')))
        (RunEvent.stdoutData (js "y")) from rfl, s1, s2]
  exact ⟨rfl, rfl, rfl⟩

theorem stepRun_resolved_some (e : RunEvent) (st : RunState) (r : CommandletResult)
    (h : st.resolved = some r) : (stepRun st e).resolved = some r := by
  cases e with
  | stdoutData c => exact h
  | stderrData c => exact h
  | timerFire =>
    simp only [stepRun]
    split
    · exact h
    · split
      · exact h
      · exact h
  | procClose code =>
    simp only [stepRun]
    exact resolveOnce_resolved_some _ _ r h
  | procError msg =>
    simp only [stepRun]
    exact resolveOnce_resolved_some _ _ r h

theorem foldl_resolved_some :
    ∀ (evs : List RunEvent) (st : RunState) (r : CommandletResult),
      st.resolved = some r → (evs.foldl stepRun st).resolved = some r := by
  intro evs
  induction evs with
  | nil => intro st r h; exact h
  | cons e rest ih =>
    intro st r h
    exact ih (stepRun st e) r (stepRun_resolved_some e st r h)

theorem foldl_resolved_isSome (evs : List RunEvent) (st : RunState)
    (h : (st.resolved).isSome = true) : ((evs.foldl stepRun st).resolved).isSome = true := by
  rcases hr : st.resolved with _ | r
  · rw [hr] at h; simp at h
  · rw [foldl_resolved_some evs st r hr]; rfl

theorem closeRun_isSome :
    ∀ (evs : List RunEvent) (st : RunState), evs.any isCloseEv = true →
      ((evs.foldl stepRun st).resolved).isSome = true := by
  intro evs
  induction evs with
  | nil => intro st h; simp at h
  | cons e rest ih =>
    intro st h
    rw [List.any_cons, Bool.or_eq_true] at h
    rcases h with hc | hr
    · cases e with
      | stdoutData c => simp [isCloseEv] at hc
      | stderrData c => simp [isCloseEv] at hc
      | timerFire => simp [isCloseEv] at hc
      | procError msg => simp [isCloseEv] at hc
      | procClose code =>
        rw [List.foldl_cons]
        apply foldl_resolved_isSome
        exact resolveOnce_isSome _ _
    · exact ih _ hr

theorem stepRun_noerr_inv (e : RunEvent) (st : RunState) (he : isErrorEv e = false)
    (h1 : st.killed = st.timedOut)
    (h2 : ∀ r, st.resolved = some r → r.timedOut = st.timedOut ∧ st.timerCleared = true) :
    (stepRun st e).killed = (stepRun st e).timedOut ∧
    ∀ r, (stepRun st e).resolved = some r →
      r.timedOut = (stepRun st e).timedOut ∧ (stepRun st e).timerCleared = true := by
  cases e with
  | stdoutData c => exact ⟨h1, h2⟩
  | stderrData c => exact ⟨h1, h2⟩
  | timerFire =>
    simp only [stepRun]
    split
    · exact ⟨h1, h2⟩
    · rename_i hcl
      split
      · exact ⟨h1, h2⟩
      · refine ⟨rfl, fun r hr => ?_⟩
        have hcl' := (h2 r hr).2
        rw [hcl'] at hcl
        simp at hcl
  | procClose code =>
    simp only [stepRun]
    constructor
    · rw [resolveOnce_killed, resolveOnce_timedOut]
      exact h1
    · intro r hr
      rw [resolveOnce_timedOut, resolveOnce_timerCleared]
      refine ⟨?_, rfl⟩
      rcases hres : st.resolved with _ | r0
      · simp only [resolveOnce, hres, Option.some.injEq] at hr
        rw [← hr]
      · simp only [resolveOnce, hres, Option.some.injEq] at hr
        rw [← hr]
        exact (h2 r0 hres).1
  | procError msg => simp [isErrorEv] at he

theorem runEvents_noerr_inv :
    ∀ (evs : List RunEvent) (st : RunState),
      evs.all (fun e => !isErrorEv e) = true →
      st.killed = st.timedOut →
      (∀ r, st.resolved = some r → r.timedOut = st.timedOut ∧ st.timerCleared = true) →
      (evs.foldl stepRun st).killed = (evs.foldl stepRun st).timedOut ∧
      ∀ r, (evs.foldl stepRun st).resolved = some r →
        r.timedOut = (evs.foldl stepRun st).timedOut ∧
        (evs.foldl stepRun st).timerCleared = true := by
  intro evs
  induction evs with
  | nil => intro st _ h1 h2; exact ⟨h1, h2⟩
  | cons e rest ih =>
    intro st hall h1 h2
    rw [List.all_cons, Bool.and_eq_true] at hall
    have he : isErrorEv e = false := by
      rcases hall.1 with h
      cases hv : isErrorEv e
      · rfl
      · rw [hv] at h; simp at h
    have hstep := stepRun_noerr_inv e st he h1 h2
    exact ih (stepRun st e) hall.2 hstep.1 hstep.2

/-- C5: in the event-loop model of `runCommandlet` — Node runs callbacks
one at a time, so any race between the process `close` event and the timer
callback is an ordering of their invocations — a settled promise never
changes (exactly one `CommandletResult` per invocation), any interleaving
without a spawn error that contains the `close` event resolves, and the
result reports `timedOut = false` exactly when the process was not killed
by the timer: a process that exits as the timer fires is never both killed
and reported as completed. -/
theorem C5_single_resolution :
    (∀ (pre post : List RunEvent) (r : CommandletResult),
      (runEvents pre).resolved = some r → (runEvents (pre ++ post)).resolved = some r) ∧
    (∀ evs : List RunEvent, evs.all (fun e => !isErrorEv e) = true →
      evs.any isCloseEv = true →
      ((runEvents evs).resolved).isSome = true ∧
      ∀ r, (runEvents evs).resolved = some r → r.timedOut = (runEvents evs).killed) := by
  constructor
  · intro pre post r h
    unfold runEvents at h ⊢
    rw [List.foldl_append]
    exact foldl_resolved_some post _ r h
  · intro evs hNE hC
    refine ⟨closeRun_isSome evs initRun hC, fun r hr => ?_⟩
    unfold runEvents at hr ⊢
    obtain ⟨h1, h2⟩ := runEvents_noerr_inv evs initRun hNE rfl
      (fun r h => by simp [initRun] at h)
    rw [(h2 r hr).1, h1]

/-- C5 witness: the timer firing before `close` yields a single resolution
with `timedOut = true`, and a resolution is stable under further events. -/
theorem C5_single_resolution_witness :
    ((runEvents [RunEvent.timerFire, RunEvent.procClose none]).resolved).isSome = true ∧
    (runEvents ([RunEvent.procClose (some 0)] ++ [RunEvent.timerFire])).resolved =
      some { exitCode := 0, stdout := [], stderr := [], timedOut := false } :=
  ⟨(C5_single_resolution.2 [RunEvent.timerFire, RunEvent.procClose none]
      (by decide) (by decide)).1,
   C5_single_resolution.1 [RunEvent.procClose (some 0)] [RunEvent.timerFire]
     { exitCode := 0, stdout := [], stderr := [], timedOut := false } (by decide)⟩

theorem stepRun_resolved_quiet (e : RunEvent) (st : RunState)
    (he : (isCloseEv e || isErrorEv e) = false) : (stepRun st e).resolved = st.resolved := by
  cases e with
  | stdoutData c => rfl
  | stderrData c => rfl
  | timerFire =>
    simp only [stepRun]
    split
    · rfl
    · split <;> rfl
  | procClose code => simp [isCloseEv] at he
  | procError msg => simp [isErrorEv] at he

theorem runQuiet_resolved :
    ∀ (evs : List RunEvent) (st : RunState),
      evs.all (fun e => !(isCloseEv e || isErrorEv e)) = true →
      (evs.foldl stepRun st).resolved = st.resolved := by
  intro evs
  induction evs with
  | nil => intro st _; rfl
  | cons e rest ih =>
    intro st hall
    rw [List.all_cons, Bool.and_eq_true] at hall
    have he : (isCloseEv e || isErrorEv e) = false := by
      cases hv : (isCloseEv e || isErrorEv e)
      · rfl
      · rw [hv] at hall; simp at hall
    rw [List.foldl_cons, ih (stepRun st e) hall.2, stepRun_resolved_quiet e st he]

/-- C8: if the spawn `error` event arrives after any quiet prefix (stream
data and timer events only), the invocation resolves — regardless of any
later events — to a `CommandletResult` with the sentinel exit code `-1`,
`timedOut = false`, and the spawn error description appended to whatever
stderr had been captured; the failure is a returned value, never a fault
of the model, which is a total function. -/
theorem C8_spawn_failure :
    ∀ (pre : List RunEvent) (msg : List Char) (post : List RunEvent),
      pre.all (fun e => !(isCloseEv e || isErrorEv e)) = true →
      (runEvents (pre ++ RunEvent.procError msg :: post)).resolved =
        some { exitCode := -1,
               stdout := ((outChunks pre).foldl (onData stdoutMarker) initCap).buf,
               stderr := ((errChunks pre).foldl (onData stderrMarker) initCap).buf ++
                 js "\nSpawn error: " ++ msg,
               timedOut := false } := by
  intro pre msg post hq
  unfold runEvents
  rw [List.foldl_append, List.foldl_cons]
  have hres : (pre.foldl stepRun initRun).resolved = none :=
    runQuiet_resolved pre initRun hq
  have hso : (pre.foldl stepRun initRun).stdout =
      (outChunks pre).foldl (onData stdoutMarker) initCap :=
    foldl_stepRun_stdout pre initRun
  have hse : (pre.foldl stepRun initRun).stderr =
      (errChunks pre).foldl (onData stderrMarker) initCap :=
    foldl_stepRun_stderr pre initRun
  apply foldl_resolved_some
  simp only [stepRun, resolveOnce, hres]
  rw [hso, hse]

/-- C8 witness: a concrete spawn failure after partial stderr, followed by
the `close` event Node also emits, resolves with the sentinel code and the
appended spawn error. -/
theorem C8_spawn_failure_witness :
    (runEvents ([RunEvent.stderrData (js "boot")] ++
        RunEvent.procError (js "ENOENT") :: [RunEvent.procClose none])).resolved =
      some { exitCode := -1,
             stdout := ((outChunks [RunEvent.stderrData (js "boot")]).foldl
               (onData stdoutMarker) initCap).buf,
             stderr := ((errChunks [RunEvent.stderrData (js "boot")]).foldl
               (onData stderrMarker) initCap).buf ++ js "\nSpawn error: " ++ js "ENOENT",
             timedOut := false } :=
  C8_spawn_failure [RunEvent.stderrData (js "boot")] (js "ENOENT")
    [RunEvent.procClose none] (by decide)

/-! ## Search handler theorems -/

/-- C9: when `new RegExp(pattern)` throws (`compile` returns an error), the
`as_search_scripts` handler answers with the invalid-pattern error and its
effect trace is empty — `scanForScripts` is never invoked and no file is
read; more generally, a failing compile never produces any filesystem
effect in any configuration branch. -/
theorem C9_invalid_pattern_fails_fast :
    (∀ (rootsModel : List (List Char × Option (List FSNode)))
        (compile : List Char → Except (List Char) (List Char → Bool))
        (readFile : List Char → Option (List Char))
        (pattern : List Char) (context_lines max_results : Nat) (msg : List Char),
      compile pattern = Except.error msg →
      rootsModel ≠ [] →
      as_search_scripts true rootsModel compile readFile pattern context_lines max_results =
        (SearchResponse.invalidPattern msg, [])) ∧
    (∀ (pc : Bool) (rootsModel : List (List Char × Option (List FSNode)))
        (compile : List Char → Except (List Char) (List Char → Bool))
        (readFile : List Char → Option (List Char))
        (pattern : List Char) (context_lines max_results : Nat) (msg : List Char),
      compile pattern = Except.error msg →
      (as_search_scripts pc rootsModel compile readFile pattern
          context_lines max_results).2 = []) := by
  constructor
  · intro rootsModel compile readFile pattern context_lines max_results msg h hne
    unfold as_search_scripts
    rw [show (!true) = false from rfl, if_neg (by simp)]
    rw [if_neg (by
      simp only [List.length_map, beq_iff_eq, List.length_eq_zero]
      exact hne)]
    rw [h]
  · intro pc rootsModel compile readFile pattern context_lines max_results msg h
    cases pc
    · rfl
    · unfold as_search_scripts
      rw [show (!true) = false from rfl, if_neg (by simp)]
      by_cases hz : ((rootsModel.map Prod.fst).length == 0) = true
      · rw [if_pos hz]
      · rw [if_neg hz, h]

/-- C9 witness: a concrete invalid pattern with one configured root makes
the handler report the invalid pattern with an empty effect trace. -/
theorem C9_invalid_pattern_fails_fast_witness :
    as_search_scripts true [(js "/r", none)] (fun _ => Except.error (js "bad"))
        (fun _ => none) (js "(") 2 20 =
      (SearchResponse.invalidPattern (js "bad"), []) ∧
    (as_search_scripts false [(js "/r", none)] (fun _ => Except.error (js "bad"))
        (fun _ => none) (js "(") 2 20).2 = [] :=
  ⟨C9_invalid_pattern_fails_fast.1 [(js "/r", none)] (fun _ => Except.error (js "bad"))
      (fun _ => none) (js "(") 2 20 (js "bad") rfl (by simp),
   C9_invalid_pattern_fails_fast.2 false [(js "/r", none)] (fun _ => Except.error (js "bad"))
      (fun _ => none) (js "(") 2 20 (js "bad") rfl⟩
